import Mathlib

/-!
Shallow embedding of `count_lines_in_files` from `src/count.py`.

The Python function walks a directory tree with `os.walk(root)`, skips every
yielded directory whose path contains one of nine fixed substrings, counts the
lines of every file whose name ends with one of four fixed suffixes, and
accumulates the counts in a dict keyed by `filename.split('.')[-1]`.  The whole
walk and the final report loop sit inside a single `try/except Exception`
block, whose handler prints one error message.

Modelling decisions, all taken from the source and the documented semantics of
the Python standard-library calls it makes:
* paths, file names and file contents are `List Char` (`Str`);
* a file's `content` is `Option Str`: `some text` when the bytes decode as
  UTF-8, `none` when `open(..., encoding='utf-8')` / reading raises
  `UnicodeDecodeError`;
* `os.walk` is `walk`: it yields the root directory first and then, top-down,
  every subdirectory, with paths built by `os.path.join` (here `p ++ '/' :: n`);
  the Python code never edits the `subfolders` list, so no subtree is pruned —
  excluded directories are still yielded and tested one by one;
* `os.walk` on a root that does not exist or is not a directory calls
  `scandir`, which raises; with the default `onerror=None` that error is
  swallowed and the generator yields nothing.  The filesystem argument is
  therefore an `Option FSTree`, with `none` standing for an invalid root;
* Python's substring test `e in s` is `e <:+: s` and `name.endswith(suffix)`
  is `suffix <:+ name`, both decided with `decide`;
* the observable outcome is `Output`: either the printed report (the final
  dict, rendered entry by entry as `"{file_type}: {count} lines"`) or the
  single `"An error occurred: ..."` message from the `except` handler.
-/

abbrev Str := List Char

/-- A file inside a directory: its name and the result of decoding its bytes
as UTF-8 text (`none` = decoding raises `UnicodeDecodeError`). -/
structure FileEnt where
  name : Str
  content : Option Str
deriving DecidableEq

mutual

/-- A directory tree: the files directly inside the directory, and the named
subdirectories. -/
inductive FSTree where
  | node : List FileEnt → DirList → FSTree
deriving DecidableEq

/-- The named subdirectories of a directory. -/
inductive DirList where
  | nil : DirList
  | cons : Str → FSTree → DirList → DirList
deriving DecidableEq

end

mutual

/-- `os.walk`: yields `(dirpath, filenames)` for the visited directory first,
then recursively for each subdirectory, top-down, paths joined with `'/'`.
(`count.py` uses the `subfolders` component only through this recursion.) -/
def walk (p : Str) : FSTree → List (Str × List FileEnt)
  | .node fs ds => (p, fs) :: walkDirs p ds

/-- The walks of the subdirectories of a directory whose path is `p`,
concatenated in order. -/
def walkDirs (p : Str) : DirList → List (Str × List FileEnt)
  | .nil => []
  | .cons n t rest => walk (p ++ '/' :: n) t ++ walkDirs p rest

end

/-- `os.walk(root)` including the invalid-root case: `none` (root missing or
not a directory) yields nothing, because `os.walk`'s default `onerror=None`
swallows the `scandir` error. -/
def osWalk (root : Str) (fs : Option FSTree) : List (Str × List FileEnt) :=
  match fs with
  | none => []
  | some t => walk root t

/-- The nine substrings of the `if/elif ... continue` chain in `count.py`:
each is tested with Python's `in`, i.e. substring containment on the
directory's path. -/
def exclusions : List Str :=
  ["node_modules".toList, ".git".toList, ".vscode".toList, "__pycache__".toList,
   "venv".toList, ".next".toList, "build".toList, "target".toList,
   "github".toList]

/-- The `if/elif` chain: the directory is skipped (`continue`) iff some
exclusion string occurs as a substring of `foldername`. -/
def excludedDir (p : Str) : Bool :=
  exclusions.any (fun e => decide (e <:+: p))

/-- Python's `name.endswith(tuple)`: true iff the name ends with one of the
suffixes (exact, case-sensitive suffix comparison). -/
def endswith (suffixes : List Str) (name : Str) : Bool :=
  suffixes.any (fun suf => decide (suf <:+ name))

/-- The fixed tuple `('.jsx', '.js', '.css', '.rs')` from `count.py`. -/
def acceptedSuffixes : List Str :=
  [".jsx".toList, ".js".toList, ".css".toList, ".rs".toList]

/-- `filename.endswith(('.jsx', '.js', '.css', '.rs'))`. -/
def matchesExt (name : Str) : Bool :=
  endswith acceptedSuffixes name

/-- `filename.split('.')[-1]`: the aggregation key of a file.  Python's
`split` always returns a non-empty list, so `[-1]` is its last element. -/
def fileKey (name : Str) : Str :=
  (List.splitOn '.' name).getLastD []

/-- Iterating a Python text file yields its lines; `b` records whether we are
inside an unterminated line when the input ends (the final partial line counts
as one line). -/
def countLinesAux : Str → Bool → Nat
  | [], b => if b then 1 else 0
  | c :: rest, _ => if c = '\n' then 1 + countLinesAux rest false
                    else countLinesAux rest true

/-- `sum(1 for line in file)`: the number of lines the file iterator yields. -/
def countLines (text : Str) : Nat :=
  countLinesAux text false

/-- The dict `line_counts`, as an association list in insertion order. -/
abbrev CountMap := List (Str × Nat)

/-- `if file_type in line_counts: line_counts[file_type] += n
else: line_counts[file_type] = n`. -/
def updateCounts (m : CountMap) (key : Str) (n : Nat) : CountMap :=
  if m.any (fun p => p.1 = key) then
    m.map (fun p => if p.1 = key then (p.1, p.2 + n) else p)
  else m ++ [(key, n)]

/-- `line_counts.get(key)`: the accumulated count for a key, `none` when the
key is absent. -/
def lookupCount (m : CountMap) (key : Str) : Option Nat :=
  (m.find? (fun p => p.1 = key)).map (fun p => p.2)

/-- The body of the inner `for filename in filenames` loop for one file:
non-matching names are ignored; a matching file is opened, which either
decodes (`some text`, count added under `fileKey`) or raises
`UnicodeDecodeError` (`none`, the exception propagates). -/
def processFile (m : CountMap) (f : FileEnt) : Except Unit CountMap :=
  if matchesExt f.name then
    match f.content with
    | none => .error ()
    | some text => .ok (updateCounts m (fileKey f.name) (countLines text))
  else .ok m

/-- The inner `for` loop over the files of one directory; the first raised
exception aborts it. -/
def processFiles (m : CountMap) : List FileEnt → Except Unit CountMap
  | [] => .ok m
  | f :: rest =>
    match processFile m f with
    | .error e => .error e
    | .ok m2 => processFiles m2 rest

/-- One iteration of the outer `for foldername, ... in os.walk(root)` loop:
an excluded directory is skipped whole (`continue` fires before any of its
files is opened), otherwise its files are processed. -/
def processEntry (m : CountMap) (e : Str × List FileEnt) : Except Unit CountMap :=
  if excludedDir e.1 then .ok m else processFiles m e.2

/-- The outer loop over all walk entries; the first raised exception aborts
it. -/
def processEntries (m : CountMap) : List (Str × List FileEnt) → Except Unit CountMap
  | [] => .ok m
  | e :: rest =>
    match processEntry m e with
    | .error err => .error err
    | .ok m2 => processEntries m2 rest

/-- The observable behaviour of a run: either the report loop prints
`"{file_type}: {count} lines"` for each dict entry in order, or the `except`
handler prints a single `"An error occurred: ..."` message (and nothing
else). -/
inductive Output where
  | report : CountMap → Output
  | errorMessage : Output
deriving DecidableEq

/-- `count_lines_in_files(root)` from `src/count.py`, run on a filesystem in
which `root` names `fs` (`none` = invalid root). -/
def count_lines_in_files (root : Str) (fs : Option FSTree) : Output :=
  match processEntries [] (osWalk root fs) with
  | .ok m => .report m
  | .error _ => .errorMessage

/-- The files the source actually counts: those of non-excluded walk entries
whose name passes the extension test.  Condition (a) of the spec invariant is
`excludedDir e.1 = false`, condition (b) is `matchesExt f.name = true`. -/
def qualifyingFiles (entries : List (Str × List FileEnt)) : List FileEnt :=
  entries.flatMap
    (fun e => if excludedDir e.1 then []
              else e.2.filter (fun f => matchesExt f.name))

/-- The text of a file that decoded successfully (`[]` for an undecodable
file; only used under hypotheses that rule the latter out or make it
irrelevant). -/
def contentText (f : FileEnt) : Str :=
  f.content.getD []

/-- The qualifying files that aggregate under key `k`. -/
def keyFiles (l : List FileEnt) (k : Str) : List FileEnt :=
  l.filter (fun f => matchesExt f.name && fileKey f.name = k)

/-- The total line count key `k` should receive from the files `l`. -/
def keySum (l : List FileEnt) (k : Str) : Nat :=
  ((keyFiles l k).map (fun f => countLines (contentText f))).sum

/-- What lookup of key `k` should give after processing the files `l` on top
of a dict in which `k`'s current lookup is `prev`: files under `k` add their
line counts, and a key never looked at stays absent. -/
def keyResult (prev : Option Nat) (l : List FileEnt) (k : Str) : Option Nat :=
  match prev with
  | some v => some (v + keySum l k)
  | none => if keyFiles l k = [] then none else some (keySum l k)

-- Sanity checks on small concrete inputs.
example : countLines "a\nb\n".toList = 2 := by decide
example : countLines "a\nb".toList = 2 := by decide
example : countLines "abc".toList = 1 := by decide
example : countLines [] = 0 := by decide
example : matchesExt "a.js".toList = true := by decide
example : matchesExt "a.jsx".toList = true := by decide
example : matchesExt "README.md".toList = false := by decide
example : fileKey "a.b.js".toList = "js".toList := by decide
example : excludedDir "./rebuild-artifacts".toList = true := by decide
example : excludedDir "./src".toList = false := by decide
example :
    count_lines_in_files "./r".toList
      (some (.node [⟨"a.js".toList, some "x\ny\n".toList⟩]
        (.cons "sub".toList (.node [⟨"b.rs".toList, some "z".toList⟩] .nil) .nil))) =
    .report [("js".toList, 2), ("rs".toList, 1)] := by decide
example :
    count_lines_in_files "./r".toList
      (some (.node [⟨"a.js".toList, some "x\n".toList⟩,
                    ⟨"bad.js".toList, none⟩] .nil)) =
    .errorMessage := by decide

section Lemmas

/-- Unfolding `countLinesAux`: every newline closes one line; at the end of
input an open partial line contributes one more. -/
theorem countLinesAux_spec (l : Str) : ∀ b : Bool,
    countLinesAux l b =
      l.count '\n' +
        (if l = [] then (if b then 1 else 0)
         else if l.getLast? = some '\n' then 0 else 1) := by
  induction l with
  | nil => intro b; simp [countLinesAux]
  | cons c rest ih =>
    intro b
    cases hr : rest with
    | nil =>
      by_cases hc : c = '\n' <;>
        simp [countLinesAux, hc, List.count_cons, List.count_nil]
    | cons d ds =>
      rw [← hr]
      have hrne : rest ≠ [] := by rw [hr]; exact List.cons_ne_nil d ds
      have hlast : (c :: rest).getLast? = rest.getLast? := by
        rw [hr]; exact List.getLast?_cons_cons
      by_cases hc : c = '\n'
      · rw [show countLinesAux (c :: rest) b = 1 + countLinesAux rest false by
          simp [countLinesAux, hc]]
        rw [ih false, hlast]
        simp [List.count_cons, hc, hrne]
        omega
      · rw [show countLinesAux (c :: rest) b = countLinesAux rest true by
          simp [countLinesAux, hc]]
        rw [ih true, hlast]
        have : (c == '\n') = false := by simp [hc]
        simp [List.count_cons, this, hrne]

mutual

/-- Every entry that `os.walk` yields for a directory with path `p` (the
directory itself and all of its descendants) has `p` as a path prefix. -/
theorem walk_path_isPrefix (p : Str) (t : FSTree) :
    ∀ e ∈ walk p t, p <+: e.1 := by
  cases t with
  | node fs ds =>
    intro e he
    rw [walk] at he
    rcases List.mem_cons.mp he with h | h
    · rw [h]
    · exact walkDirs_path_isPrefix p ds e h

/-- Every entry yielded below one of the subdirectories of a directory with
path `p` has `p` as a path prefix. -/
theorem walkDirs_path_isPrefix (p : Str) (ds : DirList) :
    ∀ e ∈ walkDirs p ds, p <+: e.1 := by
  cases ds with
  | nil => intro e he; rw [walkDirs] at he; exact absurd he (List.not_mem_nil e)
  | cons n t rest =>
    intro e he
    rw [walkDirs] at he
    rcases List.mem_append.mp he with h | h
    · have h1 : p ++ '/' :: n <+: e.1 := walk_path_isPrefix (p ++ '/' :: n) t e h
      exact List.IsPrefix.trans ⟨'/' :: n, rfl⟩ h1
    · exact walkDirs_path_isPrefix p rest e h

end

/-- Substring containment propagates down the walk: if an exclusion string is
contained in the path of a directory, it is contained in the path of every
entry of that directory's walk, so the whole subtree is excluded. -/
theorem walk_excluded_of_excluded (p : Str) (t : FSTree)
    (h : excludedDir p = true) : ∀ e ∈ walk p t, excludedDir e.1 = true := by
  intro e he
  rcases List.any_eq_true.mp h with ⟨x, hx, hinf⟩
  apply List.any_eq_true.mpr
  refine ⟨x, hx, ?_⟩
  have hpref : p <+: e.1 := walk_path_isPrefix p t e he
  exact decide_eq_true ((of_decide_eq_true hinf).trans hpref.isInfix)

/-- Walk entries of an all-excluded list are all skipped, leaving the dict
untouched and raising nothing. -/
theorem processEntries_of_all_excluded (entries : List (Str × List FileEnt))
    (hall : ∀ e ∈ entries, excludedDir e.1 = true) :
    ∀ m : CountMap, processEntries m entries = .ok m := by
  induction entries with
  | nil => intro m; rfl
  | cons e rest ih =>
    intro m
    have he : excludedDir e.1 = true := hall e (List.mem_cons_self e rest)
    rw [processEntries, processEntry, if_pos he]
    exact ih (fun x hx => hall x (List.mem_cons_of_mem e hx)) m

end Lemmas

section StepLemmas

theorem processFile_not_matching (m : CountMap) (f : FileEnt)
    (h : matchesExt f.name = false) : processFile m f = .ok m := by
  simp [processFile, h]

theorem processFile_matching_ok (m : CountMap) (f : FileEnt) (text : Str)
    (hm : matchesExt f.name = true) (hc : f.content = some text) :
    processFile m f = .ok (updateCounts m (fileKey f.name) (countLines text)) := by
  simp [processFile, hm, hc]

theorem processFile_matching_bad (m : CountMap) (f : FileEnt)
    (hm : matchesExt f.name = true) (hc : f.content = none) :
    processFile m f = .error () := by
  simp [processFile, hm, hc]

theorem processFiles_cons_ok (m : CountMap) (f : FileEnt) (rest : List FileEnt)
    (m1 : CountMap) (h : processFile m f = .ok m1) :
    processFiles m (f :: rest) = processFiles m1 rest := by
  rw [processFiles, h]

theorem processFiles_cons_error (m : CountMap) (f : FileEnt) (rest : List FileEnt)
    (h : processFile m f = .error ()) :
    processFiles m (f :: rest) = .error () := by
  rw [processFiles, h]

theorem processEntries_cons_ok (m : CountMap) (e : Str × List FileEnt)
    (rest : List (Str × List FileEnt)) (m1 : CountMap)
    (h : processEntry m e = .ok m1) :
    processEntries m (e :: rest) = processEntries m1 rest := by
  rw [processEntries, h]

theorem processEntries_cons_error (m : CountMap) (e : Str × List FileEnt)
    (rest : List (Str × List FileEnt)) (h : processEntry m e = .error ()) :
    processEntries m (e :: rest) = .error () := by
  rw [processEntries, h]

end StepLemmas

section MapLemmas

/-- The per-key bump of `updateCounts` never changes a key. -/
theorem bump_fst (p : Str × Nat) (k : Str) (n : Nat) :
    (if p.1 = k then (p.1, p.2 + n) else p).1 = p.1 := by
  by_cases h : p.1 = k <;> simp [h]

/-- Mapping the per-key bump over the dict commutes with `find?`, because the
bump preserves every key. -/
theorem find?_map_bump (m : CountMap) (k k' : Str) (n : Nat) :
    (m.map (fun p => if p.1 = k then (p.1, p.2 + n) else p)).find?
        (fun p => p.1 = k') =
      (m.find? (fun p => p.1 = k')).map
        (fun p => if p.1 = k then (p.1, p.2 + n) else p) := by
  induction m with
  | nil => rfl
  | cons q rest ih =>
    rw [List.map_cons]
    by_cases hq : q.1 = k'
    · rw [List.find?_cons_of_pos _ (by simp only [bump_fst]; simp [hq]),
        List.find?_cons_of_pos _ (by simp [hq])]
      rfl
    · rw [List.find?_cons_of_neg _ (by simp only [bump_fst]; simp [hq]),
        List.find?_cons_of_neg _ (by simp [hq])]
      exact ih

/-- The dict after the source's `+=` / insert step, seen through lookup: the
touched key gains `n` (starting from `0` when absent), all other keys keep
their value. -/
theorem lookupCount_update (m : CountMap) (k : Str) (n : Nat) (k' : Str) :
    lookupCount (updateCounts m k n) k' =
      if k' = k then some ((lookupCount m k).getD 0 + n)
      else lookupCount m k' := by
  unfold updateCounts
  by_cases hany : m.any (fun p => p.1 = k) = true
  · rw [if_pos hany]
    unfold lookupCount
    rw [find?_map_bump]
    by_cases hk : k' = k
    · subst hk
      have hsome : (m.find? (fun p => p.1 = k')).isSome := by
        rw [List.find?_isSome]
        rcases List.any_eq_true.mp hany with ⟨x, hx, hpx⟩
        exact ⟨x, hx, hpx⟩
      obtain ⟨q, hq⟩ := Option.isSome_iff_exists.mp hsome
      have hq1 : q.1 = k' := by
        have h3 := List.find?_some hq
        simpa using h3
      rw [hq]
      simp [hq1]
    · rw [if_neg hk]
      cases hf : m.find? (fun p => p.1 = k') with
      | none => rfl
      | some q =>
        have hq1 : q.1 = k' := by
          have h3 := List.find?_some hf
          simpa using h3
        have hqk : ¬ q.1 = k := by rw [hq1]; exact hk
        simp [hqk]
  · rw [if_neg hany]
    unfold lookupCount
    rw [List.find?_append]
    have hnone : m.find? (fun p => p.1 = k) = none := by
      rw [List.find?_eq_none]
      intro x hx hpx
      exact hany (List.any_eq_true.mpr ⟨x, hx, by simpa using hpx⟩)
    by_cases hk : k' = k
    · subst hk
      rw [hnone]
      simp [List.find?]
    · rw [if_neg hk]
      have hlast : List.find? (fun p => p.1 = k') [(k, n)] = none := by
        rw [List.find?_eq_none]
        intro x hx
        rw [List.mem_singleton] at hx
        subst hx
        simp only [decide_eq_true_eq]
        exact fun hcon => hk hcon.symm
      rw [hlast]
      cases m.find? (fun p => p.1 = k') <;> rfl

end MapLemmas

section AggregationLemmas

theorem keyResult_nil (prev : Option Nat) (k : Str) :
    keyResult prev [] k = prev := by
  cases prev <;> simp [keyResult, keySum, keyFiles]

/-- `keyResult` only looks at the files that aggregate under `k`. -/
theorem keyResult_congr (prev : Option Nat) (l₁ l₂ : List FileEnt) (k : Str)
    (h : keyFiles l₁ k = keyFiles l₂ k) :
    keyResult prev l₁ k = keyResult prev l₂ k := by
  cases prev <;> simp [keyResult, keySum, h]

theorem keyFiles_cons_skip (f : FileEnt) (rest : List FileEnt) (k : Str)
    (h : (matchesExt f.name && decide (fileKey f.name = k)) = false) :
    keyFiles (f :: rest) k = keyFiles rest k := by
  simp only [keyFiles, List.filter_cons, h]
  rfl

theorem keyFiles_cons_take (f : FileEnt) (rest : List FileEnt) (k : Str)
    (h : (matchesExt f.name && decide (fileKey f.name = k)) = true) :
    keyFiles (f :: rest) k = f :: keyFiles rest k := by
  simp only [keyFiles, List.filter_cons, h]
  rfl

/-- Lookup after the inner file loop finishes without an exception: every
file of the directory that matches the extension filter and aggregates under
`k` adds its line count there; other keys are untouched. -/
theorem processFiles_lookup (l : List FileEnt) : ∀ m0 m : CountMap,
    processFiles m0 l = .ok m → ∀ k : Str,
    lookupCount m k = keyResult (lookupCount m0 k) l k := by
  induction l with
  | nil =>
    intro m0 m h k
    have hm : m = m0 := (Except.ok.inj (by rw [processFiles] at h; exact h)).symm
    subst hm
    rw [keyResult_nil]
  | cons f rest ih =>
    intro m0 m h k
    by_cases hmatch : matchesExt f.name = true
    · cases hc : f.content with
      | none =>
        rw [processFiles_cons_error m0 f rest
          (processFile_matching_bad m0 f hmatch hc)] at h
        exact absurd h (by simp)
      | some text =>
        rw [processFiles_cons_ok m0 f rest _
          (processFile_matching_ok m0 f text hmatch hc)] at h
        have hstep := ih _ m h k
        rw [lookupCount_update] at hstep
        have hct : contentText f = text := by rw [contentText, hc]; rfl
        by_cases hkey : fileKey f.name = k
        · rw [hkey] at hstep
          rw [if_pos rfl] at hstep
          have hkf : keyFiles (f :: rest) k = f :: keyFiles rest k :=
            keyFiles_cons_take f rest k (by simp [hmatch, hkey])
          have hks : keySum (f :: rest) k = countLines text + keySum rest k := by
            rw [keySum, hkf, List.map_cons, List.sum_cons, ← keySum, hct]
          cases hm0 : lookupCount m0 k with
          | some v =>
            rw [hm0] at hstep
            simp only [keyResult, Option.getD_some] at hstep ⊢
            rw [hstep, hks]
            simp [Nat.add_assoc]
          | none =>
            rw [hm0] at hstep
            simp only [keyResult, Option.getD_none] at hstep ⊢
            rw [if_neg (by rw [hkf]; exact List.cons_ne_nil f (keyFiles rest k))]
            rw [hstep, hks]
            simp [Nat.add_comm, Nat.add_assoc]
        · rw [if_neg (fun hcon => hkey hcon.symm)] at hstep
          rw [keyResult_congr (lookupCount m0 k) (f :: rest) rest k
            (keyFiles_cons_skip f rest k (by simp [hkey]))]
          exact hstep
    · have hmf : matchesExt f.name = false := by
        cases hb : matchesExt f.name with
        | true => exact absurd hb hmatch
        | false => rfl
      rw [processFiles_cons_ok m0 f rest m0 (processFile_not_matching m0 f hmf)] at h
      rw [keyResult_congr (lookupCount m0 k) (f :: rest) rest k
        (keyFiles_cons_skip f rest k (by simp [hmf]))]
      exact ih m0 m h k

end AggregationLemmas

section EntriesLemmas

/-- Processing a concatenation of file lists is processing the first part and,
if no exception was raised, the second on the resulting dict. -/
theorem processFiles_append (l₁ l₂ : List FileEnt) : ∀ m : CountMap,
    processFiles m (l₁ ++ l₂) =
      match processFiles m l₁ with
      | .error e => .error e
      | .ok m1 => processFiles m1 l₂ := by
  induction l₁ with
  | nil => intro m; rfl
  | cons f rest ih =>
    intro m
    rw [List.cons_append]
    cases hpf : processFile m f with
    | error e =>
      cases e
      rw [processFiles_cons_error m f (rest ++ l₂) hpf,
        processFiles_cons_error m f rest hpf]
    | ok m1 =>
      rw [processFiles_cons_ok m f (rest ++ l₂) m1 hpf,
        processFiles_cons_ok m f rest m1 hpf]
      exact ih m1

/-- Files that fail the extension test are invisible to the inner loop. -/
theorem processFiles_filter_matching (l : List FileEnt) : ∀ m : CountMap,
    processFiles m (l.filter (fun f => matchesExt f.name)) = processFiles m l := by
  induction l with
  | nil => intro m; rfl
  | cons f rest ih =>
    intro m
    cases hb : matchesExt f.name with
    | true =>
      have hfc : (f :: rest).filter (fun g => matchesExt g.name) =
          f :: rest.filter (fun g => matchesExt g.name) := by
        simp [List.filter_cons, hb]
      rw [hfc]
      cases hpf : processFile m f with
      | error e =>
        cases e
        rw [processFiles_cons_error m f (rest.filter _) hpf,
          processFiles_cons_error m f rest hpf]
      | ok m1 =>
        rw [processFiles_cons_ok m f (rest.filter _) m1 hpf,
          processFiles_cons_ok m f rest m1 hpf]
        exact ih m1
    | false =>
      have hfc : (f :: rest).filter (fun g => matchesExt g.name) =
          rest.filter (fun g => matchesExt g.name) := by
        simp [List.filter_cons, hb]
      rw [hfc]
      rw [processFiles_cons_ok m f rest m (processFile_not_matching m f hb)]
      exact ih m

/-- The outer loop over any entry list behaves exactly like the inner loop
run once over the qualifying files: files in excluded directories and files
failing the extension test play no part in the run. -/
theorem processEntries_eq_qualifying (entries : List (Str × List FileEnt)) :
    ∀ m : CountMap,
    processEntries m entries = processFiles m (qualifyingFiles entries) := by
  induction entries with
  | nil => intro m; rfl
  | cons e rest ih =>
    intro m
    rw [show qualifyingFiles (e :: rest) =
        (if excludedDir e.1 then [] else e.2.filter (fun f => matchesExt f.name))
          ++ qualifyingFiles rest from by
      rw [qualifyingFiles, List.flatMap_cons, ← qualifyingFiles]]
    cases hex : excludedDir e.1 with
    | true =>
      rw [if_pos rfl, List.nil_append,
        processEntries_cons_ok m e rest m (by rw [processEntry, hex]; rfl)]
      exact ih m
    | false =>
      rw [if_neg Bool.false_ne_true, processFiles_append]
      have hpe : processEntry m e = processFiles m e.2 := by
        rw [processEntry, hex]
        rfl
      rw [processFiles_filter_matching]
      cases hpf : processFiles m e.2 with
      | error err =>
        cases err
        rw [processEntries_cons_error m e rest (by rw [hpe, hpf])]
      | ok m1 =>
        rw [processEntries_cons_ok m e rest m1 (by rw [hpe, hpf])]
        exact ih m1

/-- A matching file that cannot be decoded makes the inner loop raise, no
matter what was accumulated before. -/
theorem processFiles_error_of_bad (l : List FileEnt)
    (hbad : ∃ f ∈ l, matchesExt f.name = true ∧ f.content = none) :
    ∀ m : CountMap, processFiles m l = .error () := by
  induction l with
  | nil => exact absurd hbad (by simp)
  | cons f rest ih =>
    intro m
    rcases hbad with ⟨g, hg, hgm, hgc⟩
    rcases List.mem_cons.mp hg with hgf | hgrest
    · subst hgf
      exact processFiles_cons_error m g rest (processFile_matching_bad m g hgm hgc)
    · cases hpf : processFile m f with
      | error e =>
        cases e
        exact processFiles_cons_error m f rest hpf
      | ok m1 =>
        rw [processFiles_cons_ok m f rest m1 hpf]
        exact ih ⟨g, hgrest, hgm, hgc⟩ m1

/-- A matching file of a non-excluded walk entry is a qualifying file. -/
theorem mem_qualifyingFiles (entries : List (Str × List FileEnt))
    (e : Str × List FileEnt) (f : FileEnt) (he : e ∈ entries)
    (hex : excludedDir e.1 = false) (hf : f ∈ e.2)
    (hm : matchesExt f.name = true) : f ∈ qualifyingFiles entries := by
  rw [qualifyingFiles, List.mem_flatMap]
  refine ⟨e, he, ?_⟩
  rw [if_neg (by rw [hex]; exact Bool.false_ne_true)]
  exact List.mem_filter.mpr ⟨hf, hm⟩

/-- An undecodable matching file in any non-excluded directory of the walk
makes the whole outer loop raise, whatever was accumulated before it. -/
theorem processEntries_error_of_bad (entries : List (Str × List FileEnt))
    (hbad : ∃ e ∈ entries, excludedDir e.1 = false ∧
      ∃ f ∈ e.2, matchesExt f.name = true ∧ f.content = none) :
    ∀ m : CountMap, processEntries m entries = .error () := by
  intro m
  rcases hbad with ⟨e, he, hex, f, hf, hm, hc⟩
  rw [processEntries_eq_qualifying]
  exact processFiles_error_of_bad (qualifyingFiles entries)
    ⟨f, mem_qualifyingFiles entries e f he hex hf hm, hm, hc⟩ m

end EntriesLemmas

section PermLemmas

theorem keyFiles_perm (l₁ l₂ : List FileEnt) (h : l₁.Perm l₂) (k : Str) :
    (keyFiles l₁ k).Perm (keyFiles l₂ k) :=
  h.filter _

theorem keySum_perm (l₁ l₂ : List FileEnt) (h : l₁.Perm l₂) (k : Str) :
    keySum l₁ k = keySum l₂ k :=
  List.Perm.sum_eq ((keyFiles_perm l₁ l₂ h k).map _)

theorem keyFiles_eq_nil_perm (l₁ l₂ : List FileEnt) (h : l₁.Perm l₂) (k : Str) :
    (keyFiles l₁ k = []) ↔ (keyFiles l₂ k = []) := by
  constructor
  · intro h1
    exact ((h1 ▸ keyFiles_perm l₁ l₂ h k).symm).eq_nil
  · intro h2
    exact (h2 ▸ keyFiles_perm l₁ l₂ h k).eq_nil

theorem keyResult_perm (prev : Option Nat) (l₁ l₂ : List FileEnt)
    (h : l₁.Perm l₂) (k : Str) :
    keyResult prev l₁ k = keyResult prev l₂ k := by
  cases prev with
  | some v => simp [keyResult, keySum_perm l₁ l₂ h k]
  | none =>
    rw [keyResult, keyResult]
    by_cases h1 : keyFiles l₁ k = []
    · rw [if_pos h1, if_pos ((keyFiles_eq_nil_perm l₁ l₂ h k).mp h1)]
    · rw [if_neg h1, if_neg (fun h2 => h1 ((keyFiles_eq_nil_perm l₁ l₂ h k).mpr h2)),
        keySum_perm l₁ l₂ h k]

end PermLemmas

section ClaimHelpers

/-- A walk in which no file passes the extension filter has no qualifying
files. -/
theorem qualifyingFiles_eq_nil_of_no_match (entries : List (Str × List FileEnt))
    (h : ∀ e ∈ entries, ∀ f ∈ e.2, matchesExt f.name = false) :
    qualifyingFiles entries = [] := by
  rw [qualifyingFiles, List.flatMap_eq_nil_iff]
  intro e he
  by_cases hex : excludedDir e.1 = true
  · rw [if_pos hex]
  · rw [if_neg hex]
    rw [List.filter_eq_nil_iff]
    intro f hf
    rw [h e he f hf]
    exact Bool.false_ne_true

end ClaimHelpers

/-- C1 counterexample: a directory holding one decodable `.js` file of two
lines next to one undecodable `.js` file.  The claim says the run skips only
the bad file and still reports the two good lines; the code instead prints the
error message and reports nothing. -/
theorem decode_error_not_isolated_cex :
    count_lines_in_files "./r".toList
        (some (.node [⟨"good.js".toList, some "a\nb\n".toList⟩,
                      ⟨"bad.js".toList, none⟩] .nil)) = .errorMessage ∧
    count_lines_in_files "./r".toList
        (some (.node [⟨"good.js".toList, some "a\nb\n".toList⟩,
                      ⟨"bad.js".toList, none⟩] .nil)) ≠
      .report [("js".toList, 2)] := by
  constructor
  · decide
  · decide

/-- C1 (amended): an undecodable matching file in any non-excluded directory
of the walk aborts the whole run: the single error message is printed and no
report is produced at all. -/
theorem count_aborts_on_decode_error (root : Str) (t : FSTree)
    (hbad : ∃ e ∈ walk root t, excludedDir e.1 = false ∧
      ∃ f ∈ e.2, matchesExt f.name = true ∧ f.content = none) :
    count_lines_in_files root (some t) = .errorMessage := by
  rw [count_lines_in_files, show osWalk root (some t) = walk root t from rfl,
    processEntries_error_of_bad (walk root t) hbad []]

/-- Witness for the amended C1 at a concrete tree. -/
theorem count_aborts_on_decode_error_witness :
    count_lines_in_files "./r".toList
        (some (.node [⟨"a.js".toList, some "x\n".toList⟩,
                      ⟨"bad.js".toList, none⟩] .nil)) = .errorMessage :=
  count_aborts_on_decode_error "./r".toList
    (.node [⟨"a.js".toList, some "x\n".toList⟩, ⟨"bad.js".toList, none⟩] .nil)
    (by decide)

/-- C2 counterexample: on a root that does not exist (`os.walk` yields
nothing), the run does not fail: it succeeds and prints the empty report. -/
theorem invalid_root_no_fatal_error_cex :
    count_lines_in_files "/nonexistent".toList none = .report [] ∧
    count_lines_in_files "/nonexistent".toList none ≠ .errorMessage := by
  constructor
  · rfl
  · decide

/-- C2 (amended): for every root that does not exist or is not a directory,
`os.walk` swallows the `scandir` error and yields nothing, so the run
succeeds with an empty report (it prints no lines and raises nothing). -/
theorem invalid_root_empty_report (root : Str) :
    count_lines_in_files root none = .report [] := rfl

/-- C3: directory exclusion is case-sensitive substring containment on the
visited directory's path: whenever an exclusion string is a substring of a
directory's path (e.g. `"build"` inside `"./rebuild-artifacts"`), that
directory and every descendant are skipped, so the whole subtree contributes
no files to the dict and raises nothing. -/
theorem excluded_substring_skips_subtree (p : Str) (t : FSTree) (e : Str)
    (he : e ∈ exclusions) (hinf : e <:+: p) :
    (∀ en ∈ walk p t, excludedDir en.1 = true) ∧
    ∀ m : CountMap, processEntries m (walk p t) = .ok m := by
  have hex : excludedDir p = true :=
    List.any_eq_true.mpr ⟨e, he, decide_eq_true hinf⟩
  have hall := walk_excluded_of_excluded p t hex
  exact ⟨hall, processEntries_of_all_excluded (walk p t) hall⟩

/-- Witness for C3: a `rebuild-artifacts` directory (matching exclusion
`"build"` as a substring only) with a matching file and a subdirectory with
another matching file contributes nothing. -/
theorem excluded_substring_skips_subtree_witness :
    processEntries [] (walk "./rebuild-artifacts".toList
      (.node [⟨"a.js".toList, some "x\n".toList⟩]
        (.cons "sub".toList
          (.node [⟨"b.rs".toList, some "y\n".toList⟩] .nil) .nil))) = .ok [] :=
  (excluded_substring_skips_subtree "./rebuild-artifacts".toList
    (.node [⟨"a.js".toList, some "x\n".toList⟩]
      (.cons "sub".toList
        (.node [⟨"b.rs".toList, some "y\n".toList⟩] .nil) .nil))
    "build".toList (by decide) (by decide)).2 []

/-- C4: the run is exactly the aggregation of the qualifying files — those in
a non-excluded directory (condition (a)) whose name ends in an accepted suffix
(condition (b)); no other file is ever counted.  Moreover, under substring
matching a non-excluded directory has no excluded ancestor, so condition (a)
is genuinely "not inside any excluded directory". -/
theorem counted_files_exactly_qualifying :
    (∀ (m : CountMap) (entries : List (Str × List FileEnt)),
      processEntries m entries = processFiles m (qualifyingFiles entries)) ∧
    ∀ p q : Str, q <+: p → excludedDir p = false → excludedDir q = false := by
  constructor
  · intro m entries
    exact processEntries_eq_qualifying entries m
  · intro p q hpq hp
    cases hq : excludedDir q with
    | false => rfl
    | true =>
      rcases List.any_eq_true.mp hq with ⟨e, he, hinf⟩
      have hpex : excludedDir p = true :=
        List.any_eq_true.mpr
          ⟨e, he, decide_eq_true ((of_decide_eq_true hinf).trans hpq.isInfix)⟩
      rw [hp] at hpex
      exact absurd hpex Bool.false_ne_true

/-- Witness for C4 at a concrete walk and a concrete prefix pair. -/
theorem counted_files_exactly_qualifying_witness :
    processEntries [] (walk "./r".toList
        (.node [⟨"a.js".toList, some "x\n".toList⟩,
                ⟨"README.md".toList, some "hi".toList⟩] .nil)) =
      processFiles [] (qualifyingFiles (walk "./r".toList
        (.node [⟨"a.js".toList, some "x\n".toList⟩,
                ⟨"README.md".toList, some "hi".toList⟩] .nil))) ∧
    excludedDir "./src".toList = false :=
  ⟨counted_files_exactly_qualifying.1 [] (walk "./r".toList
      (.node [⟨"a.js".toList, some "x\n".toList⟩,
              ⟨"README.md".toList, some "hi".toList⟩] .nil)),
   counted_files_exactly_qualifying.2 "./src/deep".toList "./src".toList
     (by decide) (by decide)⟩

/-- C5: extension filtering is exact, case-sensitive suffix matching — a name
passes iff it literally ends with one of the accepted suffixes — and with
accepted suffix `".js"` alone the name `"a.jsx"` does not pass. -/
theorem suffix_match_exact :
    (∀ name : Str,
      matchesExt name = true ↔ ∃ suf ∈ acceptedSuffixes, suf <:+ name) ∧
    endswith [".js".toList] "a.jsx".toList = false := by
  constructor
  · intro name
    rw [matchesExt, endswith, List.any_eq_true]
    constructor
    · rintro ⟨suf, hs, hd⟩
      exact ⟨suf, hs, of_decide_eq_true hd⟩
    · rintro ⟨suf, hs, hd⟩
      exact ⟨suf, hs, decide_eq_true hd⟩
  · decide

/-- Witness for C5: `"a.js"` passes the source's filter via the `".js"`
suffix. -/
theorem suffix_match_exact_witness :
    matchesExt "a.js".toList = true ∧
    endswith [".js".toList] "a.jsx".toList = false :=
  ⟨(suffix_match_exact.1 "a.js".toList).mpr ⟨".js".toList, by decide, by decide⟩,
   suffix_match_exact.2⟩

/-- C6: the counted number of lines is the number of newline characters, plus
one when the text is non-empty and does not end in a newline (the final
partial line counts); in particular a non-empty file with no newline at all
counts as exactly one line. -/
theorem countLines_newline_semantics :
    (∀ text : Str, countLines text =
      text.count '\n' +
        (if text = [] ∨ text.getLast? = some '\n' then 0 else 1)) ∧
    ∀ text : Str, text ≠ [] → text.count '\n' = 0 → countLines text = 1 := by
  have main : ∀ text : Str, countLines text =
      text.count '\n' +
        (if text = [] ∨ text.getLast? = some '\n' then 0 else 1) := by
    intro text
    rw [countLines, countLinesAux_spec]
    by_cases h1 : text = []
    · simp [h1]
    · by_cases h2 : text.getLast? = some '\n'
      · simp [h1, h2]
      · simp [h1, h2]
  refine ⟨main, ?_⟩
  intro text hne hcount
  rw [main text, hcount]
  rw [if_neg ?hcond]
  case hcond =>
    rintro (h1 | h2)
    · exact hne h1
    · have hmem : '\n' ∈ text := List.mem_of_getLast?_eq_some h2
      exact (List.count_eq_zero.mp hcount) hmem

/-- Witness for C6: a three-character file with no newline counts as one
line. -/
theorem countLines_newline_semantics_witness :
    countLines "abc".toList = 1 :=
  countLines_newline_semantics.2 "abc".toList (by decide) (by decide)

/-- C7: traversal order does not affect the result — processing any two
permutations of the same qualifying files (e.g. depth-first versus
breadth-first order) yields dicts with identical lookups for every key,
because per-key accumulation by addition is commutative. -/
theorem aggregation_order_irrelevant (l₁ l₂ : List FileEnt) (hperm : l₁.Perm l₂)
    (m₁ m₂ : CountMap) (h₁ : processFiles [] l₁ = .ok m₁)
    (h₂ : processFiles [] l₂ = .ok m₂) :
    ∀ k : Str, lookupCount m₁ k = lookupCount m₂ k := by
  intro k
  rw [processFiles_lookup l₁ [] m₁ h₁ k, processFiles_lookup l₂ [] m₂ h₂ k]
  rw [show lookupCount [] k = none from rfl]
  exact keyResult_perm none l₁ l₂ hperm k

/-- Witness for C7: the same two files in either order give the same
lookups. -/
theorem aggregation_order_irrelevant_witness :
    lookupCount [("js".toList, 3), ("rs".toList, 1)] "js".toList =
      lookupCount [("rs".toList, 1), ("js".toList, 3)] "js".toList :=
  aggregation_order_irrelevant
    [⟨"a.js".toList, some "x\ny\nz".toList⟩, ⟨"b.rs".toList, some "w".toList⟩]
    [⟨"b.rs".toList, some "w".toList⟩, ⟨"a.js".toList, some "x\ny\nz".toList⟩]
    (by decide)
    [("js".toList, 3), ("rs".toList, 1)] [("rs".toList, 1), ("js".toList, 3)]
    rfl rfl "js".toList

/-- C8: a walk with no file passing the extension filter (in particular an
empty root directory) produces the empty report — success, zero counts, no
error. -/
theorem no_matching_files_empty_report (root : Str) (fs : Option FSTree)
    (h : ∀ e ∈ osWalk root fs, ∀ f ∈ e.2, matchesExt f.name = false) :
    count_lines_in_files root fs = .report [] := by
  rw [count_lines_in_files, processEntries_eq_qualifying,
    qualifyingFiles_eq_nil_of_no_match (osWalk root fs) h]
  rfl

/-- Witness for C8: a directory with one non-matching file reports nothing,
and an empty directory reports nothing. -/
theorem no_matching_files_empty_report_witness :
    count_lines_in_files "./r".toList
        (some (.node [⟨"README.md".toList, some "hello".toList⟩]
          (.cons "docs".toList (.node [] .nil) .nil))) = .report [] :=
  no_matching_files_empty_report "./r".toList
    (some (.node [⟨"README.md".toList, some "hello".toList⟩]
      (.cons "docs".toList (.node [] .nil) .nil)))
    (by decide)

/-- C9: when the root path itself contains an excluded substring, every
directory the walk yields inherits that substring, so every one is skipped
and the run reports nothing, whatever tree lies under the root. -/
theorem root_excluded_empty_report (root : Str) (fs : Option FSTree) (e : Str)
    (he : e ∈ exclusions) (hinf : e <:+: root) :
    (∀ en ∈ osWalk root fs, excludedDir en.1 = true) ∧
    count_lines_in_files root fs = .report [] := by
  cases fs with
  | none =>
    refine ⟨?_, rfl⟩
    intro en hen
    exact absurd hen (List.not_mem_nil en)
  | some t =>
    have hex : excludedDir root = true :=
      List.any_eq_true.mpr ⟨e, he, decide_eq_true hinf⟩
    have hall := walk_excluded_of_excluded root t hex
    refine ⟨hall, ?_⟩
    rw [count_lines_in_files, show osWalk root (some t) = walk root t from rfl,
      processEntries_of_all_excluded (walk root t) hall []]

/-- Witness for C9: a root named `./my-build` (which contains `"build"`)
yields the empty report although it holds a matching two-line file. -/
theorem root_excluded_empty_report_witness :
    count_lines_in_files "./my-build".toList
        (some (.node [⟨"a.js".toList, some "x\ny\n".toList⟩] .nil)) =
      .report [] :=
  (root_excluded_empty_report "./my-build".toList
    (some (.node [⟨"a.js".toList, some "x\ny\n".toList⟩] .nil))
    "build".toList (by decide) (by decide)).2

/-- C10: once any matching file of a non-excluded directory fails to decode,
the outer loop raises regardless of everything accumulated so far, and the
run's only output is the single error message — no report line is printed,
so counts gathered before the failure are discarded. -/
theorem error_discards_all_counts (root : Str) (fs : Option FSTree)
    (m : CountMap)
    (hbad : ∃ e ∈ osWalk root fs, excludedDir e.1 = false ∧
      ∃ f ∈ e.2, matchesExt f.name = true ∧ f.content = none) :
    processEntries m (osWalk root fs) = .error () ∧
    count_lines_in_files root fs = .errorMessage := by
  have h1 := processEntries_error_of_bad (osWalk root fs) hbad
  refine ⟨h1 m, ?_⟩
  rw [count_lines_in_files, h1 []]

/-- Witness for C10: with a good file followed by an undecodable one, even a
pre-filled dict is discarded and the run only prints the error message. -/
theorem error_discards_all_counts_witness :
    processEntries [("js".toList, 5)]
        (osWalk "./r".toList
          (some (.node [⟨"a.js".toList, some "x\n".toList⟩,
                        ⟨"bad.css".toList, none⟩] .nil))) = .error () ∧
    count_lines_in_files "./r".toList
        (some (.node [⟨"a.js".toList, some "x\n".toList⟩,
                      ⟨"bad.css".toList, none⟩] .nil)) = .errorMessage :=
  error_discards_all_counts "./r".toList
    (some (.node [⟨"a.js".toList, some "x\n".toList⟩,
                  ⟨"bad.css".toList, none⟩] .nil))
    [("js".toList, 5)] (by decide)
